import Mathlib

set_option maxRecDepth 4000

/-
Verification of egs2/genshin/tts1/local/data_process.py.

Python strings are embedded as `List Char` (their sequence of unicode code
points).  The filesystem is embedded as a single directory level: an
association list from entry names to nodes, where a node is either a file
(with its decoded audio properties) or a subdirectory (with its own
association list of entries).  External collaborators are embedded by their
documented behaviour:
  * pydub `AudioSegment.from_file` / `soundfile.read` succeed or raise
    according to the `decodable` / `sfReadable` flags of a file;
    `len(audio)` is the duration in integer milliseconds, so the Python
    comparison `len(audio)/1000.0 < 1.0` is exactly `durationMs < 1000`.
  * `shutil.move(src, dst)` with `dst` an existing directory raises
    `shutil.Error` when `dst/basename(src)` already exists, otherwise it is
    `os.rename(src, dst/basename(src))`; with `dst` an existing file it is
    `os.rename(src, dst)`, which on POSIX silently replaces a file with a
    file and raises for a directory source (the `shutil.move` copy fallback
    then also fails, because the destination exists).
  * `os.remove` raises on a missing path or a directory; `os.rename` to a
    non-existing path never touches any other entry.
-/

namespace DataProcess

abbrev Str := List Char

/-- `[a-zA-Z0-9]`, the characters kept by the regex in clean_name. -/
def isAlnum (c : Char) : Bool :=
  decide (('a' ≤ c ∧ c ≤ 'z') ∨ ('A' ≤ c ∧ c ≤ 'Z') ∨ ('0' ≤ c ∧ c ≤ '9'))

/-- The whitespace class used by the regex `\s` and by `str.split()`
(ASCII whitespace plus the further code points both treat as whitespace). -/
def spaceChars : Str :=
  [' ', '\t', '\n', '\x0d', '\x0b', '\x0c', '\x1c', '\x1d', '\x1e', '\x1f', '\x85', '\xa0']

def pySpace (c : Char) : Bool := spaceChars.contains c

/-- Characters surviving `re.sub(r'[^a-zA-Z0-9\s]', '', text)`. -/
def keepChar (c : Char) : Bool := isAlnum c || pySpace c

/-- Python `str.split()`: maximal runs of non-whitespace characters. -/
def words : List Char → List (List Char)
  | [] => []
  | c :: cs =>
    if pySpace c then words cs
    else
      match cs with
      | [] => [[c]]
      | c2 :: _ =>
        if pySpace c2 then [c] :: words cs
        else
          match words cs with
          | [] => [[c]]
          | w :: ws => (c :: w) :: ws

/-- Python `' '.join(ws)`. -/
def joinWords : List (List Char) → List Char
  | [] => []
  | [w] => w
  | w :: ws => w ++ ' ' :: joinWords ws

/-- clean_name (data_process.py lines 25-30): strip every character outside
`[a-zA-Z0-9\s]`, then `' '.join(cleaned.split())`. -/
def clean_name (s : Str) : Str := joinWords (words (s.filter keepChar))

/-- `[0-9]` for the regex `\d`. -/
def isDigit (c : Char) : Bool := decide ('0' ≤ c ∧ c ≤ '9')

def allDigits (l : Str) : Bool := l.all isDigit

/-- Does the anchored regex `[_-]?(\d+)$` match the whole of `l`? -/
def matchWhole : Str → Bool
  | [] => false
  | c :: cs =>
    (isDigit c && allDigits cs) ||
    ((c == '_' || c == '-') && !cs.isEmpty && allDigits cs)

/-- `re.search` scanning for the leftmost start position of a match of
`[_-]?(\d+)$` (the pattern is end-anchored, so a match at position `i`
consumes the whole suffix starting at `i`). -/
def searchGo : Str → Nat → Option Nat
  | [], _ => none
  | c :: cs, i => if matchWhole (c :: cs) then some i else searchGo cs (i + 1)

/-- `pattern.search(dir_name)` for `pattern = re.compile(r'[_-]?(\d+)$')`,
returning `match.start()` (data_process.py line 238, 241). -/
def searchStart (s : Str) : Option Nat := searchGo s 0

/-- Modelled from the spec's words, for comparison with the code's
`searchStart`/`take`: remove exactly the trailing digit run and, when the
character in front of it is `_` or `-`, that one separator as well. -/
def specStripSuffix (s : Str) : Str :=
  match s.reverse.dropWhile isDigit with
  | c :: rest2 => if c = '_' ∨ c = '-' then rest2.reverse else (c :: rest2).reverse
  | [] => []

/-- One step of Python `str.replace(pat, rep)` scanning with explicit fuel
(left-to-right, non-overlapping occurrences). -/
def replaceGo (pat rep : Str) : Nat → Str → Str
  | 0, l => l
  | _ + 1, [] => []
  | fuel + 1, c :: rest =>
    if pat.isPrefixOf (c :: rest) then rep ++ replaceGo pat rep fuel ((c :: rest).drop pat.length)
    else c :: replaceGo pat rep fuel rest

/-- Python `l.replace(pat, rep)`. -/
def replaceAll (l pat rep : Str) : Str := replaceGo pat rep l.length l

/-- `pat` occurs nowhere in `s ++ pat` except as the final suffix. -/
def noEarlyOcc (s pat : Str) : Bool :=
  s.tails.all (fun t => t.isEmpty || !(pat.isPrefixOf (t ++ pat)))

def wavLit : Str := ['.', 'w', 'a', 'v']

def labLit : Str := ['.', 'l', 'a', 'b']

/-- ASCII `str.lower` on one character. -/
def lowerAscii (c : Char) : Char :=
  if 'A' ≤ c ∧ c ≤ 'Z' then Char.ofNat (c.toNat + 32) else c

/-- `file_path.lower().endswith('.wav')`. -/
def lowerEndsWithWav (p : Str) : Bool := wavLit.isSuffixOf (p.map lowerAscii)

/-- The part of the path after the last `/` (the basename). -/
def baseNameOf (p : Str) : Str := (p.reverse.takeWhile (fun c => !(c == '/'))).reverse

/-- The part of the path up to and including the last `/`. -/
def dirPartOf (p : Str) : Str := (p.reverse.dropWhile (fun c => !(c == '/'))).reverse

/-- On the REVERSED basename: drop up to and including the last `.` of the
basename; `none` when the basename has no suffix (no dot, or only the
leading dot of a dotfile), matching `pathlib` suffix rules. -/
def dropExtRev : Str → Option Str
  | [] => none
  | c :: rest => if c = '.' then (if rest.isEmpty then none else some rest) else dropExtRev rest

/-- `pathlib.Path(b).suffix` of a basename `b`. -/
def extOf (b : Str) : Str :=
  match dropExtRev b.reverse with
  | some _ => '.' :: (b.reverse.takeWhile (fun c => !(c == '.'))).reverse
  | none => []

/-- `Path(file).suffix.lower()`. -/
def lowerExtOf (b : Str) : Str := (extOf b).map lowerAscii

/-- `str(Path(file_path).with_suffix('.wav'))` (data_process.py line 149). -/
def withSuffixWav (p : Str) : Str :=
  let b := baseNameOf p
  let stem := match dropExtRev b.reverse with
              | some r => r.reverse
              | none => b
  dirPartOf p ++ stem ++ wavLit

/-- `os.path.splitext` (dot-started basenames have no extension). -/
def splitExt (p : Str) : Str × Str :=
  let e := extOf (baseNameOf p)
  (p.take (p.length - e.length), e)

/-- The AUDIO_EXTENSIONS set (data_process.py line 19). -/
def audioExts : List Str :=
  [['.', 'm', 'p', '3'], ['.', 'w', 'a', 'v'], ['.', 'o', 'g', 'g'],
   ['.', 'm', '4', 'a'], ['.', 'f', 'l', 'a', 'c']]

/-- The FOLDERS_TO_REMOVE deny list (data_process.py lines 11-16). -/
def foldersToRemove : List Str :=
  [('其' :: '它' :: '语' :: '音' :: ' ' :: '-' :: ' ' :: ['O', 't', 'h', 'e', 'r', 's']),
   ('带' :: '变' :: '量' :: '语' :: '音' :: ' ' :: '-' :: ' ' ::
      ['P', 'l', 'a', 'c', 'e', 'h', 'o', 'l', 'd', 'e', 'r']),
   ('战' :: '斗' :: '语' :: '音' :: ' ' :: '-' :: ' ' :: ['B', 'a', 't', 't', 'l', 'e']),
   ('#' :: ['U', 'n', 'k', 'n', 'o', 'w', 'n'])]

/-- has_chinese (data_process.py lines 21-23). -/
def has_chinese (s : Str) : Bool :=
  s.any (fun c => decide (0x4e00 ≤ c.toNat ∧ c.toNat ≤ 0x9fff))

/-- Decoded audio properties of a file, as the two codec adapters see it. -/
structure FileData where
  sfReadable : Bool
  decodable : Bool
  channels : Nat
  sampleRate : Nat
  durationMs : Nat
deriving DecidableEq

/-- A filesystem node: a file or a directory with its entries. -/
inductive Node where
  | file : FileData → Node
  | dir : List (Str × Node) → Node

/-- One directory level of the filesystem. -/
abbrev Listing := List (Str × Node)

def hasName (es : Listing) (n : Str) : Bool := es.any (fun e => e.1 == n)

def lookupL (es : Listing) (n : Str) : Option Node :=
  (es.find? (fun e => e.1 == n)).map (fun e => e.2)

def lookupFile (es : Listing) (n : Str) : Option FileData :=
  match lookupL es n with
  | some (Node.file f) => some f
  | _ => none

def isDirAt (es : Listing) (n : Str) : Bool :=
  match lookupL es n with
  | some (Node.dir _) => true
  | _ => false

def removeL (es : Listing) (n : Str) : Listing := es.filter (fun e => !(e.1 == n))

def setL (es : Listing) (n : Str) (v : Node) : Listing :=
  es.map (fun e => if e.1 == n then (n, v) else e)

def setOrAdd (es : Listing) (n : Str) (v : Node) : Listing :=
  if hasName es n then setL es n v else es ++ [(n, v)]

def dirNames (es : Listing) : List Str :=
  es.filterMap (fun e => match e.2 with | Node.dir _ => some e.1 | _ => none)

def fileNames (es : Listing) : List Str :=
  es.filterMap (fun e => match e.2 with | Node.file _ => some e.1 | _ => none)

/-- The sf.write / `data.mean` + `signal.resample` re-encode in the
soundfile branch: the file becomes mono 44100 Hz wav of the same duration. -/
def reencodeSf (f : FileData) : FileData :=
  { f with sfReadable := true, decodable := true, channels := 1, sampleRate := 44100 }

/-- `audio.set_channels(1)` / `audio.set_frame_rate(44100)` + wav export. -/
def reencodePd (f : FileData) : FileData :=
  { f with sfReadable := true, decodable := true,
           channels := if f.channels > 1 then 1 else f.channels,
           sampleRate := if f.sampleRate ≠ 44100 then 44100 else f.sampleRate }

/-- convert_audio_format (data_process.py lines 91-175).  Returns the
(possibly new) path, the `converted` flag, and the updated directory. -/
def convert_audio_format (fs : Listing) (p : Str) (dry : Bool) : Str × Bool × Listing :=
  if (lookupL fs p).isNone then (p, false, fs)
  else
    match lookupFile fs p with
    | none => (p, false, fs)
    | some f =>
      if lowerEndsWithWav p && f.sfReadable then
        if f.channels > 1 ∨ f.sampleRate ≠ 44100 then
          if dry then (p, true, fs)
          else (p, true, setL fs p (Node.file (reencodeSf f)))
        else (p, false, fs)
      else if f.decodable then
        let np := withSuffixWav p
        if p = np ∧ f.channels = 1 ∧ f.sampleRate = 44100 then (p, false, fs)
        else if dry then (np, true, fs)
        else
          let fs1 := setOrAdd fs np (Node.file (reencodePd f))
          (np, true, if p = np then fs1 else removeL fs1 p)
      else (p, false, fs)

/-- get_audio_duration (data_process.py lines 82-89), in milliseconds;
a decode failure (or missing path) is caught and reported as 0. -/
def get_audio_duration (fs : Listing) (p : Str) : Nat :=
  match lookupFile fs p with
  | some f => if f.decodable then f.durationMs else 0
  | none => 0

/-- The duration check and removal part of process_audio_file
(data_process.py lines 184-198): `os.remove(file_path)` then
`os.remove(file_path.replace('.wav', '.lab'))`, both raises caught. -/
def short_clip_step (fs : Listing) (p : Str) (dry : Bool) : Bool × Listing :=
  if get_audio_duration fs p < 1000 then
    if dry then (true, fs)
    else
      match lookupFile fs p with
      | none => (true, fs)
      | some _ =>
        let fs2 := removeL fs p
        let lab := replaceAll p wavLit labLit
        match lookupFile fs2 lab with
        | some _ => (true, removeL fs2 lab)
        | none => (true, fs2)
  else (false, fs)

/-- process_audio_file (data_process.py lines 178-198). -/
def process_audio_file (fs : Listing) (p : Str) (dry : Bool) : Str × Bool × Listing :=
  let r := convert_audio_format fs p dry
  let s := short_clip_step r.2.2 r.1 dry
  (r.1, s.1, s.2)

/-- The audio-file pre-scan of remove_short_audio_files (lines 204-208). -/
def audioPaths (es : Listing) : List Str :=
  es.filterMap (fun e =>
    match e.2 with
    | Node.file _ => if audioExts.contains (lowerExtOf e.1) then some e.1 else none
    | _ => none)

/-- remove_short_audio_files (data_process.py lines 200-221); the workers
touch disjoint file pairs, embedded as a left fold over the pre-scan list. -/
def remove_short_audio_files (es : Listing) (dry : Bool) : Listing :=
  (audioPaths es).foldl (fun s q => (process_audio_file s q dry).2.2) es

/-- remove_specific_folders + safe_remove_folder (lines 42-56, 223-232):
delete directories whose name is in FOLDERS_TO_REMOVE; a dry run only
reports. -/
def remove_specific_folders (es : Listing) (dry : Bool) : Listing :=
  if dry then es
  else
    es.filter (fun e =>
      match e.2 with
      | Node.dir _ => !(foldersToRemove.contains e.1)
      | _ => true)

/-- Digits of `counter` for the `f"{name}_{counter}{ext}"` disambiguation. -/
def natToChars (k : Nat) : Str := Nat.toDigits 10 k

/-- The `counter`-th candidate path tried by safe_rename's while loop. -/
def candOf (base : Str) (k : Nat) : Str :=
  let pr := splitExt base
  pr.1 ++ '_' :: natToChars k ++ pr.2

/-- The while loop of safe_rename (lines 63-68), with fuel: try
`name_1`, `name_2`, ... until a free path is found. -/
def renameFreeAux (fs : Listing) (base : Str) : Nat → Nat → Option Str
  | _, 0 => none
  | k, fuel + 1 =>
    let c := candOf base k
    if hasName fs c then renameFreeAux fs base (k + 1) fuel else some c

/-- The target path at which safe_rename actually renames:
`new_path` itself when free, otherwise the first free suffixed candidate. -/
def renameFree (fs : Listing) (base : Str) : Option Str :=
  if hasName fs base then renameFreeAux fs base 1 (fs.length + 1) else some base

/-- safe_rename (data_process.py lines 58-80) acting on one directory
level; every exception is caught inside, so a failure leaves the level
unchanged. -/
def safe_rename (fs : Listing) (old new : Str) : Listing :=
  if old = new then fs
  else
    match lookupL fs old, renameFree fs new with
    | some v, some t => removeL fs old ++ [(t, v)]
    | _, _ => fs

/-- The merge loop `for item in os.listdir(old_path): shutil.move(...)`
(lines 252-253) with the destination an existing directory listing:
each move raises `shutil.Error` when the destination already has an entry
of that name, aborting the loop; otherwise the entry is appended.
Returns the destination, the entries still left in the source, and
whether the loop completed. -/
def moveAllInto : Listing → Listing → Listing × Listing × Bool
  | dst, [] => (dst, [], true)
  | dst, (n, v) :: rest =>
    if hasName dst n then (dst, (n, v) :: rest, false)
    else moveAllInto (dst ++ [(n, v)]) rest

/-- The same merge loop when `new_path` exists but is a FILE:
`shutil.move` then is a bare `os.rename` onto the file, which silently
replaces it for a file source and fails for a directory source. -/
def renameOntoLoop : Node → Listing → Node × Listing × Bool
  | tgt, [] => (tgt, [], true)
  | tgt, (n, v) :: rest =>
    match v, tgt with
    | Node.file fd, Node.file _ => renameOntoLoop (Node.file fd) rest
    | v, tgt => (tgt, (n, v) :: rest, false)

/-- The body of rename_speaker_folders for one listed directory name
(data_process.py lines 241-257).  The second component is false when an
uncaught exception aborts the surrounding pass. -/
def speaker_step (es : Listing) (dname : Str) (dry : Bool) : Listing × Bool :=
  match searchStart dname with
  | none => (es, true)
  | some i =>
    let newName := dname.take i
    if dry then (es, true)
    else if newName.isEmpty then
      match lookupL es dname with
      | some (Node.dir cs) =>
        match moveAllInto es cs with
        | (es1, _, true) => (removeL es1 dname, true)
        | (es1, rest, false) => (setL es1 dname (Node.dir rest), false)
      | _ => (es, false)
    else
      match lookupL es newName with
      | some (Node.dir ds) =>
        match lookupL es dname with
        | some (Node.dir cs) =>
          match moveAllInto ds cs with
          | (ds1, _, true) => (removeL (setL es newName (Node.dir ds1)) dname, true)
          | (ds1, rest, false) =>
            (setL (setL es newName (Node.dir ds1)) dname (Node.dir rest), false)
        | _ => (es, false)
      | some (Node.file fd) =>
        match lookupL es dname with
        | some (Node.dir cs) =>
          match renameOntoLoop (Node.file fd) cs with
          | (tgt1, _, true) => (removeL (setL es newName tgt1) dname, true)
          | (tgt1, rest, false) =>
            (setL (setL es newName tgt1) dname (Node.dir rest), false)
        | _ => (es, false)
      | none =>
        match lookupL es dname with
        | some v => (removeL es dname ++ [(newName, v)], true)
        | none => (es, true)

/-- The loop of rename_speaker_folders over the snapshot of directory
names; an uncaught exception aborts the remaining iterations. -/
def speakerGo : Listing → List Str → Bool → Listing
  | es, [], _ => es
  | es, d :: ds, dry =>
    match speaker_step es d dry with
    | (es1, true) => speakerGo es1 ds dry
    | (es1, false) => es1

/-- rename_speaker_folders (data_process.py lines 234-260) on one level. -/
def rename_speaker_folders (es : Listing) (dry : Bool) : Listing :=
  speakerGo es (dirNames es) dry

/-- The pinyin renaming loop of rename_folders_to_pinyin (lines 271-287);
`tr` embeds `pypinyin.lazy_pinyin` + capitalize + join, whose output the
code passes through clean_name. -/
def pinyinGo (tr : Str → Str) : Listing → List Str → Bool → Listing
  | es, [], _ => es
  | es, d :: ds, dry =>
    if has_chinese d then
      let nn := clean_name (tr d)
      if nn.isEmpty then pinyinGo tr es ds dry
      else if dry then pinyinGo tr es ds dry
      else pinyinGo tr (safe_rename es d nn) ds dry
    else pinyinGo tr es ds dry

/-- rename_folders_to_pinyin (data_process.py lines 262-292): remove the
deny-listed folders, rename Chinese-named directories, then run the audio
pass. -/
def rename_folders_to_pinyin (tr : Str → Str) (es : Listing) (dry : Bool) : Listing :=
  let es1 := remove_specific_folders es dry
  let es2 := pinyinGo tr es1 (dirNames es1) dry
  remove_short_audio_files es2 dry

/-- `name.replace('_', '-')`. -/
def underToDash (n : Str) : Str := n.map (fun c => if c == '_' then '-' else c)

/-- The rename loop of rename_files_underscore_to_dash over one snapshot
of names. -/
def underscoreGo : Listing → List Str → Bool → Listing
  | es, [], _ => es
  | es, n :: ns, dry =>
    if n.contains '_' then
      if dry then underscoreGo es ns dry
      else underscoreGo (safe_rename es n (underToDash n)) ns dry
    else underscoreGo es ns dry

/-- rename_files_underscore_to_dash (data_process.py lines 294-322) on one
level: files first, then directories. -/
def rename_files_underscore_to_dash (es : Listing) (dry : Bool) : Listing :=
  underscoreGo (underscoreGo es (fileNames es) dry) (dirNames es) dry

/-- main (data_process.py lines 324-340): the full pass sequence. -/
def pipelineRun (tr : Str → Str) (es : Listing) (dry : Bool) : Listing :=
  rename_files_underscore_to_dash
    (rename_speaker_folders (rename_folders_to_pinyin tr es dry) dry) dry

/-- An already-clean name: space-joined nonempty alphanumeric tokens. -/
def IsCleanStr (s : Str) : Prop :=
  ∃ ws, (∀ w ∈ ws, w ≠ [] ∧ ∀ c ∈ w, isAlnum c = true) ∧ s = joinWords ws

/-- Decoded duration of the file stored under a name (0 when absent). -/
def durAt (es : Listing) (n : Str) : Nat :=
  match lookupFile es n with
  | some f => f.durationMs
  | none => 0

theorem takeWhile_append_all {p : Char → Bool} :
    ∀ (l1 l2 : Str), (∀ x ∈ l1, p x = true) → (l1 ++ l2).takeWhile p = l1 ++ l2.takeWhile p := by
  intro l1 l2 h
  induction l1 with
  | nil => rfl
  | cons x r ih =>
    have hx : p x = true := h x (List.mem_cons_self x r)
    simp only [List.cons_append, List.takeWhile_cons, hx, if_true]
    rw [ih (fun y hy => h y (List.mem_cons_of_mem x hy))]

theorem dropWhile_append_all {p : Char → Bool} :
    ∀ (l1 l2 : Str), (∀ x ∈ l1, p x = true) → (l1 ++ l2).dropWhile p = l2.dropWhile p := by
  intro l1 l2 h
  induction l1 with
  | nil => rfl
  | cons x r ih =>
    have hx : p x = true := h x (List.mem_cons_self x r)
    simp only [List.cons_append, List.dropWhile_cons, hx, if_true]
    exact ih (fun y hy => h y (List.mem_cons_of_mem x hy))

theorem takeWhile_cons_neg {p : Char → Bool} {x : Char} (l : Str) (h : p x = false) :
    (x :: l).takeWhile p = [] := by
  simp [List.takeWhile_cons, h]

theorem dropWhile_cons_neg {p : Char → Bool} {x : Char} (l : Str) (h : p x = false) :
    (x :: l).dropWhile p = x :: l := by
  simp [List.dropWhile_cons, h]

/-! # clean_name -/

theorem words_cons (c : Char) (cs : Str) :
    words (c :: cs) =
      if pySpace c then words cs
      else
        match cs with
        | [] => [[c]]
        | c2 :: _ =>
          if pySpace c2 then [c] :: words cs
          else
            match words cs with
            | [] => [[c]]
            | w :: ws => (c :: w) :: ws := rfl

theorem words_head :
    ∀ (cs : Str) (c : Char), pySpace c = false → ∃ w ws, words (c :: cs) = (c :: w) :: ws := by
  intro cs
  induction cs with
  | nil => intro c hc; exact ⟨[], [], by rw [words_cons]; simp [hc]⟩
  | cons c2 cs2 ih =>
    intro c hc
    by_cases h2 : pySpace c2 = true
    · refine ⟨[], words (c2 :: cs2), ?_⟩
      rw [words_cons]
      simp [hc, h2]
    · rw [Bool.not_eq_true] at h2
      obtain ⟨w, ws, hw⟩ := ih c2 h2
      refine ⟨c2 :: w, ws, ?_⟩
      rw [words_cons]
      simp only [hw]
      simp [hc, h2]

theorem words_append (w t : Str) (hw : w ≠ []) (hnon : ∀ c ∈ w, pySpace c = false)
    (ht : t = [] ∨ ∃ c2 t2, t = c2 :: t2 ∧ pySpace c2 = true) :
    words (w ++ t) = w :: words t := by
  induction w with
  | nil => exact absurd rfl hw
  | cons c w2 ih =>
    have hc : pySpace c = false := hnon c (List.mem_cons_self c w2)
    cases w2 with
    | nil =>
      rcases ht with rfl | ⟨c2, t2, rfl, h2⟩
      · rw [List.append_nil, words_cons]
        simp [hc]
        rfl
      · show words (c :: c2 :: t2) = [c] :: words (c2 :: t2)
        rw [words_cons]
        simp [hc, h2]
    | cons c2 w3 =>
      have h2 : pySpace c2 = false := hnon c2 (by simp)
      have ihs : words (c2 :: (w3 ++ t)) = (c2 :: w3) :: words t := by
        have := ih (by simp) (fun x hx => hnon x (List.mem_cons_of_mem c hx))
        simpa using this
      show words (c :: c2 :: (w3 ++ t)) = (c :: c2 :: w3) :: words t
      rw [words_cons]
      simp only [ihs]
      simp [hc, h2]

theorem joinWords_words :
    ∀ ws : List Str, (∀ w ∈ ws, w ≠ [] ∧ ∀ c ∈ w, pySpace c = false) →
      words (joinWords ws) = ws := by
  intro ws
  induction ws with
  | nil => intro _; rfl
  | cons w rest ih =>
    intro h
    obtain ⟨hw, hwnon⟩ := h w (List.mem_cons_self w rest)
    cases rest with
    | nil =>
      show words (joinWords [w]) = [w]
      have hj : joinWords [w] = w := rfl
      rw [hj]
      have := words_append w [] hw hwnon (Or.inl rfl)
      simpa using this
    | cons w2 rest2 =>
      show words (w ++ ' ' :: joinWords (w2 :: rest2)) = w :: w2 :: rest2
      rw [words_append w (' ' :: joinWords (w2 :: rest2)) hw hwnon
        (Or.inr ⟨' ', joinWords (w2 :: rest2), rfl, by decide⟩)]
      have hs : words (' ' :: joinWords (w2 :: rest2)) = words (joinWords (w2 :: rest2)) := by
        rw [words_cons]
        simp [show pySpace ' ' = true from by decide]
      rw [hs, ih (fun x hx => h x (List.mem_cons_of_mem w hx))]

theorem words_chars :
    ∀ (l : Str) (w : Str), w ∈ words l → w ≠ [] ∧ ∀ c ∈ w, pySpace c = false ∧ c ∈ l := by
  intro l
  induction l with
  | nil => intro w hw; simp [words] at hw
  | cons c cs ih =>
    intro w hw
    by_cases hc : pySpace c = true
    · rw [words_cons, if_pos hc] at hw
      obtain ⟨h1, h2⟩ := ih w hw
      exact ⟨h1, fun x hx => ⟨(h2 x hx).1, List.mem_cons_of_mem c (h2 x hx).2⟩⟩
    · rw [Bool.not_eq_true] at hc
      cases cs with
      | nil =>
        rw [words_cons] at hw
        simp [hc] at hw
        subst hw
        exact ⟨by simp, fun x hx => by simp at hx; subst hx; exact ⟨hc, by simp⟩⟩
      | cons c2 cs2 =>
        by_cases h2 : pySpace c2 = true
        · rw [words_cons] at hw
          simp only [hc, Bool.false_eq_true, if_false, h2, if_true] at hw
          rcases List.mem_cons.mp hw with rfl | hmem
          · exact ⟨by simp, fun x hx => by simp at hx; subst hx; exact ⟨hc, by simp⟩⟩
          · obtain ⟨h1, hprops⟩ := ih w hmem
            exact ⟨h1, fun x hx => ⟨(hprops x hx).1, List.mem_cons_of_mem c (hprops x hx).2⟩⟩
        · rw [Bool.not_eq_true] at h2
          obtain ⟨w0, ws0, hws⟩ := words_head cs2 c2 h2
          rw [words_cons] at hw
          simp only [hws, hc, Bool.false_eq_true, if_false, h2, if_true] at hw
          rcases List.mem_cons.mp hw with rfl | hmem
          · have hmem0 : (c2 :: w0) ∈ words (c2 :: cs2) := by rw [hws]; simp
            obtain ⟨-, hprops⟩ := ih (c2 :: w0) hmem0
            refine ⟨by simp, fun x hx => ?_⟩
            rcases List.mem_cons.mp hx with rfl | hx2
            · exact ⟨hc, by simp⟩
            · exact ⟨(hprops x hx2).1, List.mem_cons_of_mem c (hprops x hx2).2⟩
          · have hmemw : w ∈ words (c2 :: cs2) := by
              rw [hws]; exact List.mem_cons_of_mem _ hmem
            obtain ⟨h1, hprops⟩ := ih w hmemw
            exact ⟨h1, fun x hx => ⟨(hprops x hx).1, List.mem_cons_of_mem c (hprops x hx).2⟩⟩

theorem filter_keep_join :
    ∀ ws : List Str, (∀ w ∈ ws, ∀ c ∈ w, keepChar c = true) →
      (joinWords ws).filter keepChar = joinWords ws := by
  intro ws
  induction ws with
  | nil => intro _; rfl
  | cons w rest ih =>
    intro h
    cases rest with
    | nil =>
      show (joinWords [w]).filter keepChar = joinWords [w]
      have hj : joinWords [w] = w := rfl
      rw [hj]
      exact List.filter_eq_self.mpr (h w (by simp))
    | cons w2 rest2 =>
      show (w ++ ' ' :: joinWords (w2 :: rest2)).filter keepChar
          = w ++ ' ' :: joinWords (w2 :: rest2)
      rw [List.filter_append, List.filter_eq_self.mpr (h w (by simp)),
        List.filter_cons_of_pos (by decide), ih (fun x hx => h x (List.mem_cons_of_mem w hx))]

theorem alnum_keep (c : Char) (h : isAlnum c = true) : keepChar c = true := by
  simp [keepChar, h]

theorem alnum_not_space (c : Char) (h : isAlnum c = true) : pySpace c = false := by
  cases hps : pySpace c with
  | false => rfl
  | true =>
    exfalso
    have hmem : c ∈ spaceChars := by
      have hps2 := hps
      rw [pySpace] at hps2
      simpa using hps2
    simp only [spaceChars, List.mem_cons, List.not_mem_nil, or_false] at hmem
    rcases hmem with rfl|rfl|rfl|rfl|rfl|rfl|rfl|rfl|rfl|rfl|rfl|rfl <;>
      exact absurd h (by decide)

/-- C9: the name sanitizer is idempotent, and an already-clean name
(space-joined nonempty alphanumeric tokens) is returned unchanged. -/
theorem clean_name_idempotent (s : Str) :
    clean_name (clean_name s) = clean_name s ∧ (IsCleanStr s → clean_name s = s) := by
  constructor
  · have hW := words_chars (s.filter keepChar)
    show clean_name (joinWords (words (s.filter keepChar))) = _
    set W := words (s.filter keepChar) with hWdef
    have hfil : (joinWords W).filter keepChar = joinWords W := by
      apply filter_keep_join
      intro w hw c hc
      have := (hW w hw).2 c hc
      exact (List.mem_filter.mp this.2).2
    have hwords : words (joinWords W) = W := by
      apply joinWords_words
      intro w hw
      exact ⟨(hW w hw).1, fun c hc => ((hW w hw).2 c hc).1⟩
    show joinWords (words ((joinWords W).filter keepChar)) = joinWords W
    rw [hfil, hwords]
  · rintro ⟨ws, hws, rfl⟩
    show joinWords (words ((joinWords ws).filter keepChar)) = joinWords ws
    have hfil : (joinWords ws).filter keepChar = joinWords ws :=
      filter_keep_join ws (fun w hw c hc => alnum_keep c ((hws w hw).2 c hc))
    have hwords : words (joinWords ws) = ws :=
      joinWords_words ws
        (fun w hw => ⟨(hws w hw).1, fun c hc => alnum_not_space c ((hws w hw).2 c hc)⟩)
    rw [hfil, hwords]

theorem clean_name_idempotent_witness :
    clean_name (clean_name ([' ', 'a', '#', 'b', ' ', ' ', 'c'])) =
        clean_name ([' ', 'a', '#', 'b', ' ', ' ', 'c']) ∧
      clean_name (['a', 'b', ' ', 'c', '1']) = ['a', 'b', ' ', 'c', '1'] :=
  ⟨(clean_name_idempotent ([' ', 'a', '#', 'b', ' ', ' ', 'c'])).1,
   (clean_name_idempotent (['a', 'b', ' ', 'c', '1'])).2
     ⟨[['a', 'b'], ['c', '1']], by decide, by decide⟩⟩

/-! # The trailing-numeric-suffix pattern -/

theorem searchGo_some :
    ∀ (t : Str) (j i : Nat), searchGo t j = some i →
      j ≤ i ∧ i - j < t.length ∧ matchWhole (t.drop (i - j)) = true ∧
        ∀ k, k < i - j → matchWhole (t.drop k) = false := by
  intro t
  induction t with
  | nil => intro j i h; simp [searchGo] at h
  | cons c cs ih =>
    intro j i h
    by_cases hm : matchWhole (c :: cs) = true
    · rw [searchGo, if_pos hm] at h
      injection h with h
      subst h
      refine ⟨le_rfl, by simp [Nat.sub_self], by simpa [Nat.sub_self] using hm, ?_⟩
      intro k hk
      omega
    · rw [Bool.not_eq_true] at hm
      rw [searchGo, if_neg (by simp [hm])] at h
      obtain ⟨h1, h2, h3, h4⟩ := ih (j + 1) i h
      have hij : j < i := Nat.lt_of_lt_of_le (Nat.lt_succ_self j) h1
      have heq : i - j = (i - (j + 1)) + 1 := by omega
      refine ⟨Nat.le_of_lt hij, ?_, ?_, ?_⟩
      · simp only [List.length_cons]; omega
      · rw [heq]; simpa using h3
      · intro k hk
        cases k with
        | zero => simpa using hm
        | succ k2 =>
          have hk2 : k2 < i - (j + 1) := by omega
          simpa using h4 k2 hk2

theorem specStrip_cons (s : Str) (x : Char) (r2 : Str)
    (h : s.reverse.dropWhile isDigit = x :: r2) :
    specStripSuffix s = if x = '_' ∨ x = '-' then r2.reverse else (x :: r2).reverse := by
  unfold specStripSuffix
  rw [h]

theorem specStrip_nil (s : Str) (h : s.reverse.dropWhile isDigit = []) :
    specStripSuffix s = [] := by
  unfold specStripSuffix
  rw [h]

/-- C5: whenever the pattern `[_-]?(\d+)$` matches a directory name, the
computed base name `dir_name[:match.start()]` is the name with exactly the
trailing digit run and its optional single separator removed. -/
theorem speaker_suffix_base_name (s : Str) (i : Nat) (h : searchStart s = some i) :
    s.take i = specStripSuffix s := by
  obtain ⟨-, hlen, hmatch, hmin⟩ := searchGo_some s 0 i h
  simp only [Nat.sub_zero] at hlen hmatch hmin
  have hsplit : s.take i ++ s.drop i = s := List.take_append_drop i s
  have htake : (s.take i).length = i := by
    simp only [List.length_take]
    omega
  cases hbv : s.drop i with
  | nil => rw [hbv] at hmatch; simp [matchWhole] at hmatch
  | cons c t =>
    rw [hbv] at hsplit hmatch
    simp only [matchWhole, Bool.or_eq_true, Bool.and_eq_true] at hmatch
    rcases hmatch with ⟨hcd, htd⟩ | ⟨⟨hsep, hne⟩, htd⟩
    · have htd2 : t.all isDigit = true := htd
      have hballd : (c :: t).all isDigit = true := by
        simp [List.all_cons, hcd, htd2]
      cases i with
      | zero =>
        have hs : c :: t = s := by simpa using hsplit
        have hdrop : s.reverse.dropWhile isDigit = [] := by
          rw [List.dropWhile_eq_nil_iff]
          intro x hx
          have hx2 : x ∈ c :: t := by rw [hs]; exact List.mem_reverse.mp hx
          exact List.all_eq_true.mp hballd x hx2
        rw [specStrip_nil s hdrop]
        simp
      | succ j =>
        have hane : s.take (j + 1) ≠ [] := by
          intro hnil
          rw [hnil] at htake
          simp at htake
        obtain ⟨a2, x, hax⟩ := (List.eq_nil_or_concat (s.take (j + 1))).resolve_left hane
        rw [List.concat_eq_append] at hax
        have hlen2 : a2.length = j := by
          have hx1 : (s.take (j + 1)).length = a2.length + 1 := by rw [hax]; simp
          omega
        have hs2 : s = a2 ++ (x :: c :: t) := by
          rw [← hsplit, hax]; simp
        have hdropj : s.drop j = x :: c :: t := by
          rw [hs2, ← hlen2]
          exact List.drop_left a2 (x :: c :: t)
        have hxfail : matchWhole (x :: c :: t) = false := by
          rw [← hdropj]; exact hmin j (Nat.lt_succ_self j)
        simp only [matchWhole, allDigits, hballd, Bool.and_true, List.isEmpty_cons,
          Bool.not_false, Bool.or_eq_false_iff] at hxfail
        have hxd : isDigit x = false := hxfail.1
        have hxsep : ¬(x = '_' ∨ x = '-') := by
          have h1 := hxfail.2.1
          have h2 := hxfail.2.2
          simp only [beq_eq_false_iff_ne] at h1 h2
          tauto
        have hrev2 : s.reverse.dropWhile isDigit = x :: a2.reverse := by
          have hrev : s.reverse = (c :: t).reverse ++ (x :: a2.reverse) := by
            rw [hs2]
            simp [List.reverse_append, List.reverse_cons, List.append_assoc]
          rw [hrev,
            dropWhile_append_all _ _
              (fun y hy => List.all_eq_true.mp hballd y (List.mem_reverse.mp hy)),
            dropWhile_cons_neg _ hxd]
        rw [specStrip_cons s x a2.reverse hrev2, if_neg hxsep, hax]
        simp
    · have htd2 : t.all isDigit = true := htd
      have hcd : isDigit c = false := by
        simp only [Bool.or_eq_true, beq_iff_eq] at hsep
        rcases hsep with rfl | rfl <;> decide
      have hrev2 : s.reverse.dropWhile isDigit = c :: (s.take i).reverse := by
        have hrev : s.reverse = t.reverse ++ (c :: (s.take i).reverse) := by
          conv_lhs => rw [← hsplit]
          simp [List.reverse_append, List.reverse_cons, List.append_assoc]
        rw [hrev,
          dropWhile_append_all _ _
            (fun y hy => List.all_eq_true.mp htd2 y (List.mem_reverse.mp hy)),
          dropWhile_cons_neg _ hcd]
      have hcsep : c = '_' ∨ c = '-' := by
        simp only [Bool.or_eq_true, beq_iff_eq] at hsep
        exact hsep
      rw [specStrip_cons s c (s.take i).reverse hrev2, if_pos hcsep]
      simp

theorem speaker_suffix_base_name_witness :
    searchStart (['S', 'p', 'k', '_', '1', '2']) = some 3 ∧
      (['S', 'p', 'k', '_', '1', '2']).take 3 = specStripSuffix (['S', 'p', 'k', '_', '1', '2']) :=
  ⟨by decide, speaker_suffix_base_name (['S', 'p', 'k', '_', '1', '2']) 3 (by decide)⟩

/-! # Listing helpers -/

theorem lookupL_cons (a : Str × Node) (tl : Listing) (m : Str) :
    lookupL (a :: tl) m = if a.1 == m then some a.2 else lookupL tl m := by
  rw [lookupL, List.find?_cons]
  by_cases h : (a.1 == m) = true
  · simp [h]
  · simp only [Bool.not_eq_true] at h
    simp [h, lookupL]

theorem lookupL_removeL (es : Listing) (n m : Str) :
    lookupL (removeL es n) m = if m = n then none else lookupL es m := by
  induction es with
  | nil => by_cases h : m = n <;> simp [removeL, lookupL, h]
  | cons a tl ih =>
    rw [removeL, List.filter_cons]
    by_cases han : (a.1 == n) = true
    · simp only [han, Bool.not_true, Bool.false_eq_true, if_false]
      rw [removeL] at ih
      rw [ih]
      by_cases hmn : m = n
      · simp [hmn]
      · simp only [hmn, if_false]
        rw [lookupL_cons]
        have : (a.1 == m) = false := by
          rw [beq_eq_false_iff_ne]
          intro hcon
          rw [beq_iff_eq] at han
          exact hmn (hcon ▸ han ▸ rfl)
        simp [this]
    · simp only [Bool.not_eq_true] at han
      simp only [han, Bool.not_false, if_true]
      rw [lookupL_cons]
      by_cases ham : (a.1 == m) = true
      · have hmn : ¬(m = n) := by
          rw [beq_iff_eq] at ham
          intro hcon
          rw [ham] at han
          rw [hcon] at han
          simp at han
        simp only [ham, if_true, hmn, if_false]
        rw [lookupL_cons]
        simp [ham]
      · simp only [Bool.not_eq_true] at ham
        simp only [ham, Bool.false_eq_true, if_false]
        rw [removeL] at ih
        rw [ih]
        by_cases hmn : m = n
        · simp [hmn]
        · simp only [hmn, if_false]
          rw [lookupL_cons]
          simp [ham]

theorem lookupL_append (es1 es2 : Listing) (m : Str) :
    lookupL (es1 ++ es2) m =
      match lookupL es1 m with
      | some v => some v
      | none => lookupL es2 m := by
  induction es1 with
  | nil => simp [lookupL]
  | cons a tl ih =>
    rw [List.cons_append, lookupL_cons, lookupL_cons]
    by_cases h : (a.1 == m) = true
    · simp [h]
    · simp only [Bool.not_eq_true] at h
      simp [h, ih]

theorem hasName_lookupL (es : Listing) (n : Str) : hasName es n = (lookupL es n).isSome := by
  induction es with
  | nil => simp [hasName, lookupL]
  | cons a tl ih =>
    rw [hasName, List.any_cons, lookupL_cons]
    by_cases h : (a.1 == n) = true
    · simp [h]
    · simp only [Bool.not_eq_true] at h
      rw [hasName] at ih
      simp [h, ih]

/-! # str.replace -/

theorem replaceGo_nil (pat rep : Str) : ∀ fuel, replaceGo pat rep fuel [] = [] := by
  intro fuel
  cases fuel <;> rfl

theorem noEarlyOcc_tail (c : Char) (s2 pat : Str) (h : noEarlyOcc (c :: s2) pat = true) :
    noEarlyOcc s2 pat = true := by
  rw [noEarlyOcc, List.tails_cons, List.all_cons, Bool.and_eq_true] at h
  exact h.2

theorem replaceGo_append (pat rep : Str) (hpat : pat ≠ []) :
    ∀ (s : Str) (fuel : Nat), s.length + 1 ≤ fuel → noEarlyOcc s pat = true →
      replaceGo pat rep fuel (s ++ pat) = s ++ rep := by
  intro s
  induction s with
  | nil =>
    intro fuel hfuel _
    cases fuel with
    | zero => omega
    | succ f =>
      simp only [List.nil_append]
      cases hp : pat with
      | nil => exact absurd hp hpat
      | cons c r =>
        have hpre : (c :: r).isPrefixOf (c :: r) = true := by
          rw [List.isPrefixOf_iff_prefix]
        rw [replaceGo, if_pos hpre, List.drop_length, replaceGo_nil, List.append_nil]
  | cons c s2 ih =>
    intro fuel hfuel hocc
    cases fuel with
    | zero => simp at hfuel
    | succ f =>
      have hnopre : pat.isPrefixOf ((c :: s2) ++ pat) = false := by
        have hmem : (c :: s2) ∈ (c :: s2).tails :=
          (List.mem_tails (c :: s2) (c :: s2)).mpr (List.suffix_refl (c :: s2))
        have := List.all_eq_true.mp hocc (c :: s2) hmem
        simp only [List.isEmpty_cons, Bool.false_or, Bool.not_eq_true'] at this
        exact this
      rw [List.cons_append, replaceGo]
      rw [← List.cons_append, hnopre]
      simp only [Bool.false_eq_true, if_false]
      rw [List.cons_append, ih f (by simpa using hfuel) (noEarlyOcc_tail c s2 pat hocc)]

theorem replaceAll_suffix (s pat rep : Str) (hpat : pat ≠ [])
    (hocc : noEarlyOcc s pat = true) : replaceAll (s ++ pat) pat rep = s ++ rep := by
  rw [replaceAll]
  apply replaceGo_append pat rep hpat s _ _ hocc
  have : pat.length ≥ 1 := by
    cases pat with
    | nil => exact absurd rfl hpat
    | cons c r => simp
  simp only [List.length_append]
  omega

/-! # C3: short-clip removal -/

/-- Amended C3: an audio file whose decoded duration is strictly below
1.0 s is deleted, and — provided `.wav` occurs in its path only as the
final suffix — its same-base-name `.lab` companion is deleted when present
(and nothing else is touched); a file of duration at least 1.0 s is
retained.  When the path contains an earlier `.wav` occurrence,
`file_path.replace('.wav', '.lab')` mangles the companion path and the
true companion survives — see the counterexample. -/
theorem short_clip_removal (es : Listing) (s p : Str) (f : FileData)
    (hp : p = s ++ wavLit) (hocc : noEarlyOcc s wavLit = true)
    (hf : lookupFile es p = some f) (hdec : f.decodable = true)
    (hlabdir : isDirAt es (s ++ labLit) = false) :
    (f.durationMs < 1000 →
      (short_clip_step es p false).1 = true ∧
      lookupL (short_clip_step es p false).2 p = none ∧
      lookupL (short_clip_step es p false).2 (s ++ labLit) = none ∧
      ∀ q, q ≠ p → q ≠ s ++ labLit →
        lookupL (short_clip_step es p false).2 q = lookupL es q) ∧
    (1000 ≤ f.durationMs → short_clip_step es p false = (false, es)) := by
  have hdur : get_audio_duration es p = f.durationMs := by
    rw [get_audio_duration]
    simp only [hf]
    rw [if_pos hdec]
  have hlab : replaceAll p wavLit labLit = s ++ labLit := by
    rw [hp]
    exact replaceAll_suffix s wavLit labLit (by decide) hocc
  have hpne : p ≠ s ++ labLit := by
    rw [hp]
    intro hcon
    have := List.append_cancel_left hcon
    simp [wavLit, labLit] at this
  constructor
  · intro hshort
    have hcond : get_audio_duration es p < 1000 := by rw [hdur]; exact hshort
    rw [short_clip_step, if_pos hcond]
    simp only [Bool.false_eq_true, if_false, hf, hlab]
    have hlookp : lookupL (removeL es p) p = none := by
      rw [lookupL_removeL]
      simp
    have hlooklab : lookupL (removeL es p) (s ++ labLit) = lookupL es (s ++ labLit) := by
      rw [lookupL_removeL]
      simp [Ne.symm hpne]
    cases hlf : lookupFile (removeL es p) (s ++ labLit) with
    | some flab =>
      refine ⟨rfl, ?_, ?_, ?_⟩
      · rw [lookupL_removeL]
        simp [hlookp, hpne]
      · rw [lookupL_removeL]
        simp
      · intro q hq1 hq2
        rw [lookupL_removeL, if_neg hq2, lookupL_removeL, if_neg hq1]
    | none =>
      have hlabnone : lookupL es (s ++ labLit) = none := by
        rw [lookupFile, hlooklab] at hlf
        rw [isDirAt] at hlabdir
        cases hv : lookupL es (s ++ labLit) with
        | none => rfl
        | some v =>
          cases v with
          | file fd => rw [hv] at hlf; simp at hlf
          | dir d => rw [hv] at hlabdir; simp at hlabdir
      refine ⟨rfl, hlookp, ?_, ?_⟩
      · rw [hlooklab, hlabnone]
      · intro q hq1 _
        rw [lookupL_removeL, if_neg hq1]
  · intro hlong
    have hcond : ¬(get_audio_duration es p < 1000) := by rw [hdur]; omega
    rw [short_clip_step, if_neg hcond]

theorem short_clip_removal_witness :
    (short_clip_step
        [(['a', '.', 'w', 'a', 'v'], Node.file ⟨true, true, 1, 44100, 500⟩),
         (['a', '.', 'l', 'a', 'b'], Node.file ⟨false, false, 0, 0, 0⟩)]
        (['a', '.', 'w', 'a', 'v']) false).1 = true ∧
      lookupL (short_clip_step
        [(['a', '.', 'w', 'a', 'v'], Node.file ⟨true, true, 1, 44100, 500⟩),
         (['a', '.', 'l', 'a', 'b'], Node.file ⟨false, false, 0, 0, 0⟩)]
        (['a', '.', 'w', 'a', 'v']) false).2 (['a', '.', 'w', 'a', 'v']) = none ∧
      lookupL (short_clip_step
        [(['a', '.', 'w', 'a', 'v'], Node.file ⟨true, true, 1, 44100, 500⟩),
         (['a', '.', 'l', 'a', 'b'], Node.file ⟨false, false, 0, 0, 0⟩)]
        (['a', '.', 'w', 'a', 'v']) false).2 (['a'] ++ labLit) = none ∧
      short_clip_step [(['b', '.', 'w', 'a', 'v'], Node.file ⟨true, true, 1, 44100, 1000⟩)]
        (['b', '.', 'w', 'a', 'v']) false =
        (false, [(['b', '.', 'w', 'a', 'v'], Node.file ⟨true, true, 1, 44100, 1000⟩)]) := by
  have h1 := short_clip_removal
    [(['a', '.', 'w', 'a', 'v'], Node.file ⟨true, true, 1, 44100, 500⟩),
     (['a', '.', 'l', 'a', 'b'], Node.file ⟨false, false, 0, 0, 0⟩)]
    (['a']) (['a', '.', 'w', 'a', 'v']) ⟨true, true, 1, 44100, 500⟩
    (by decide) (by decide) (by decide) (by decide) (by decide)
  have h2 := short_clip_removal [(['b', '.', 'w', 'a', 'v'], Node.file ⟨true, true, 1, 44100, 1000⟩)]
    (['b']) (['b', '.', 'w', 'a', 'v']) ⟨true, true, 1, 44100, 1000⟩
    (by decide) (by decide) (by decide) (by decide) (by decide)
  obtain ⟨hh1, hh2, hh3, -⟩ := h1.1 (by decide)
  exact ⟨hh1, hh2, hh3, h2.2 (by decide)⟩

/-- Counterexample to C3 as stated: the audio file `foo.wav.wav` decodes
to 0.5 s and its companion transcript `foo.wav.lab` (same base name,
`.lab` extension) is present, yet the short-clip step deletes only the
audio file: `'foo.wav.wav'.replace('.wav', '.lab')` replaces BOTH
occurrences, giving `foo.lab.lab`, so the true companion is never
deleted. -/
theorem short_clip_companion_counterexample :
    durAt
        [(['f', 'o', 'o', '.', 'w', 'a', 'v', '.', 'w', 'a', 'v'],
            Node.file ⟨true, true, 1, 44100, 500⟩),
         (['f', 'o', 'o', '.', 'w', 'a', 'v', '.', 'l', 'a', 'b'],
            Node.file ⟨false, false, 0, 0, 0⟩)]
        (['f', 'o', 'o', '.', 'w', 'a', 'v', '.', 'w', 'a', 'v']) = 500 ∧
    (lookupL
        [(['f', 'o', 'o', '.', 'w', 'a', 'v', '.', 'w', 'a', 'v'],
            Node.file ⟨true, true, 1, 44100, 500⟩),
         (['f', 'o', 'o', '.', 'w', 'a', 'v', '.', 'l', 'a', 'b'],
            Node.file ⟨false, false, 0, 0, 0⟩)]
        (['f', 'o', 'o', '.', 'w', 'a', 'v', '.', 'l', 'a', 'b'])).isSome = true ∧
    replaceAll (['f', 'o', 'o', '.', 'w', 'a', 'v', '.', 'w', 'a', 'v']) wavLit labLit =
      ['f', 'o', 'o', '.', 'l', 'a', 'b', '.', 'l', 'a', 'b'] ∧
    (lookupL (process_audio_file
        [(['f', 'o', 'o', '.', 'w', 'a', 'v', '.', 'w', 'a', 'v'],
            Node.file ⟨true, true, 1, 44100, 500⟩),
         (['f', 'o', 'o', '.', 'w', 'a', 'v', '.', 'l', 'a', 'b'],
            Node.file ⟨false, false, 0, 0, 0⟩)]
        (['f', 'o', 'o', '.', 'w', 'a', 'v', '.', 'w', 'a', 'v']) false).2.2
      (['f', 'o', 'o', '.', 'w', 'a', 'v', '.', 'w', 'a', 'v'])).isSome = false ∧
    (lookupL (process_audio_file
        [(['f', 'o', 'o', '.', 'w', 'a', 'v', '.', 'w', 'a', 'v'],
            Node.file ⟨true, true, 1, 44100, 500⟩),
         (['f', 'o', 'o', '.', 'w', 'a', 'v', '.', 'l', 'a', 'b'],
            Node.file ⟨false, false, 0, 0, 0⟩)]
        (['f', 'o', 'o', '.', 'w', 'a', 'v', '.', 'w', 'a', 'v']) false).2.2
      (['f', 'o', 'o', '.', 'w', 'a', 'v', '.', 'l', 'a', 'b'])).isSome = true := by
  decide

/-! # C1: codec failure -/

/-- Amended C1: a file on which both decoders fail is left unrenamed and
unwritten by the format-normalization step, but the short-clip step then
reads its duration as 0.0 and deletes it. -/
theorem codec_failure_deleted (es : Listing) (p : Str) (f : FileData)
    (hf : lookupFile es p = some f) (hsf : f.sfReadable = false) (hdec : f.decodable = false) :
    convert_audio_format es p false = (p, false, es) ∧
    lookupL (process_audio_file es p false).2.2 p = none := by
  have hsome : (lookupL es p).isNone = false := by
    rw [lookupFile] at hf
    cases hv : lookupL es p with
    | none => rw [hv] at hf; simp at hf
    | some v => simp
  have hconv : convert_audio_format es p false = (p, false, es) := by
    have hcond1 : (lowerEndsWithWav p && f.sfReadable) = false := by
      rw [hsf, Bool.and_false]
    rw [convert_audio_format]
    simp only [hsome, Bool.false_eq_true, if_false, hf, hcond1, hdec]
  refine ⟨hconv, ?_⟩
  rw [process_audio_file, hconv]
  have hdur : get_audio_duration es p = 0 := by
    rw [get_audio_duration]
    simp only [hf]
    rw [if_neg (by simp [hdec])]
  rw [short_clip_step, if_pos (by rw [hdur]; omega)]
  simp only [Bool.false_eq_true, if_false, hf]
  cases hlf : lookupFile (removeL es p) (replaceAll p wavLit labLit) with
  | some flab =>
    rw [lookupL_removeL]
    by_cases hq : p = replaceAll p wavLit labLit
    · rw [if_pos hq]
    · rw [if_neg hq, lookupL_removeL]
      simp
  | none =>
    rw [lookupL_removeL]
    simp

theorem codec_failure_deleted_witness :
    convert_audio_format [(['a', '.', 'm', 'p', '3'], Node.file ⟨false, false, 2, 22050, 5000⟩)]
        (['a', '.', 'm', 'p', '3']) false =
      (['a', '.', 'm', 'p', '3'], false,
        [(['a', '.', 'm', 'p', '3'], Node.file ⟨false, false, 2, 22050, 5000⟩)]) ∧
    lookupL (process_audio_file
        [(['a', '.', 'm', 'p', '3'], Node.file ⟨false, false, 2, 22050, 5000⟩)]
        (['a', '.', 'm', 'p', '3']) false).2.2 (['a', '.', 'm', 'p', '3']) = none :=
  codec_failure_deleted
    [(['a', '.', 'm', 'p', '3'], Node.file ⟨false, false, 2, 22050, 5000⟩)]
    (['a', '.', 'm', 'p', '3']) ⟨false, false, 2, 22050, 5000⟩ (by decide) (by decide) (by decide)

/-- Counterexample to C1 as stated: this file exists and its decode fails
(a codec failure), yet after the audio pass the file is gone from disk —
it was deleted by the short-clip-removal step, not left untouched. -/
theorem codec_failure_counterexample :
    (lookupFile [(['a', '.', 'm', 'p', '3'], Node.file ⟨false, false, 2, 22050, 5000⟩)]
        (['a', '.', 'm', 'p', '3'])).map FileData.decodable = some false ∧
    (lookupL (process_audio_file
        [(['a', '.', 'm', 'p', '3'], Node.file ⟨false, false, 2, 22050, 5000⟩)]
        (['a', '.', 'm', 'p', '3']) false).2.2 (['a', '.', 'm', 'p', '3'])).isSome = false := by
  decide

/-! # C2: format normalization -/

theorem lookupFile_isNone_false (es : Listing) (p : Str) (f : FileData)
    (hf : lookupFile es p = some f) : (lookupL es p).isNone = false := by
  rw [lookupFile] at hf
  cases hv : lookupL es p with
  | none => rw [hv] at hf; simp at hf
  | some v => simp

theorem lowerEnds_of_suffix (p : Str) (hsfx : wavLit.isSuffixOf p = true) :
    lowerEndsWithWav p = true := by
  obtain ⟨u, hu⟩ := List.isSuffixOf_iff_suffix.mp hsfx
  subst hu
  rw [lowerEndsWithWav]
  apply List.isSuffixOf_iff_suffix.mpr
  have hw : wavLit.map lowerAscii = wavLit := by decide
  exact ⟨u.map lowerAscii, by rw [List.map_append, hw]⟩

theorem withSuffixWav_fix (p : Str) (hsfx : wavLit.isSuffixOf p = true)
    (hbase : baseNameOf p ≠ wavLit) : withSuffixWav p = p := by
  obtain ⟨u, hu⟩ := List.isSuffixOf_iff_suffix.mp hsfx
  subst hu
  have hrev : (u ++ wavLit).reverse = 'v' :: 'a' :: 'w' :: '.' :: u.reverse := by
    simp [wavLit, List.reverse_append]
  have hpred : ∀ x ∈ (['v', 'a', 'w', '.'] : Str), (!(x == '/')) = true := by decide
  have htw : (u ++ wavLit).reverse.takeWhile (fun c => !(c == '/')) =
      ['v', 'a', 'w', '.'] ++ u.reverse.takeWhile (fun c => !(c == '/')) := by
    rw [hrev]
    exact takeWhile_append_all (p := fun c => !(c == '/'))
      (['v', 'a', 'w', '.']) u.reverse hpred
  have hdw : (u ++ wavLit).reverse.dropWhile (fun c => !(c == '/')) =
      u.reverse.dropWhile (fun c => !(c == '/')) := by
    rw [hrev]
    exact dropWhile_append_all (p := fun c => !(c == '/'))
      (['v', 'a', 'w', '.']) u.reverse hpred
  have hbase2 : baseNameOf (u ++ wavLit) =
      (u.reverse.takeWhile (fun c => !(c == '/'))).reverse ++ wavLit := by
    rw [baseNameOf, htw]
    simp [wavLit]
  have hbune : u.reverse.takeWhile (fun c => !(c == '/')) ≠ [] := by
    intro hnil
    apply hbase
    rw [hbase2, hnil]
    simp
  have hext : dropExtRev (baseNameOf (u ++ wavLit)).reverse =
      some (u.reverse.takeWhile (fun c => !(c == '/'))) := by
    rw [hbase2]
    have hr : ((u.reverse.takeWhile (fun c => !(c == '/'))).reverse ++ wavLit).reverse =
        'v' :: 'a' :: 'w' :: '.' :: u.reverse.takeWhile (fun c => !(c == '/')) := by
      simp [wavLit, List.reverse_append]
    rw [hr]
    rw [dropExtRev, if_neg (by decide)]
    rw [dropExtRev, if_neg (by decide)]
    rw [dropExtRev, if_neg (by decide)]
    rw [dropExtRev, if_pos rfl]
    rw [if_neg (by simp [List.isEmpty_iff, hbune])]
  simp only [withSuffixWav]
  rw [hext]
  simp only [dirPartOf]
  rw [hdw]
  have hsplit2 : u.reverse.takeWhile (fun c => !(c == '/')) ++
      u.reverse.dropWhile (fun c => !(c == '/')) = u.reverse :=
    List.takeWhile_append_dropWhile _ _
  have hfin : (u.reverse.dropWhile (fun c => !(c == '/'))).reverse ++
      (u.reverse.takeWhile (fun c => !(c == '/'))).reverse = u := by
    rw [← List.reverse_append, hsplit2, List.reverse_reverse]
  conv_rhs => rw [← hfin]

theorem convert_wav_noop (es : Listing) (p : Str) (f : FileData)
    (hf : lookupFile es p = some f)
    (hsfx : wavLit.isSuffixOf p = true) (hbase : baseNameOf p ≠ wavLit)
    (hch : f.channels = 1) (hsr : f.sampleRate = 44100) :
    convert_audio_format es p false = (p, false, es) := by
  have hsome := lookupFile_isNone_false es p f hf
  have hnp : withSuffixWav p = p := withSuffixWav_fix p hsfx hbase
  rw [convert_audio_format, if_neg (by rw [hsome]; simp)]
  simp only [hf]
  by_cases hsfr : f.sfReadable = true
  · have hcond : (lowerEndsWithWav p && f.sfReadable) = true := by
      rw [hsfr, Bool.and_true]
      exact lowerEnds_of_suffix p hsfx
    simp only [hcond, if_true]
    rw [if_neg (by rw [hch, hsr]; simp)]
  · have hsfr2 : f.sfReadable = false := by rwa [Bool.not_eq_true] at hsfr
    have hcond : (lowerEndsWithWav p && f.sfReadable) = false := by
      rw [hsfr2, Bool.and_false]
    simp only [hcond, Bool.false_eq_true, if_false]
    by_cases hdec : f.decodable = true
    · simp only [hdec, if_true]
      rw [if_pos ⟨hnp.symm, hch, hsr⟩]
    · have hdec2 : f.decodable = false := by rwa [Bool.not_eq_true] at hdec
      simp [hdec2]

/-- Amended C2: a mono 44100 Hz audio file whose path ends in the literal
lowercase `.wav` (with a nonempty stem) is left untouched by the
format-normalization step: no write, same path, same directory state.
(A mono 44100 Hz file in another container is re-encoded to `.wav` and the
original deleted — see the counterexample.) -/
theorem wav_mono_44100_untouched (es : Listing) (p : Str) (f : FileData)
    (hf : lookupFile es p = some f)
    (hsfx : wavLit.isSuffixOf p = true) (hbase : baseNameOf p ≠ wavLit)
    (hch : f.channels = 1) (hsr : f.sampleRate = 44100) :
    convert_audio_format es p false = (p, false, es) :=
  convert_wav_noop es p f hf hsfx hbase hch hsr

theorem wav_mono_44100_untouched_witness :
    convert_audio_format [(['x', '.', 'w', 'a', 'v'], Node.file ⟨true, true, 1, 44100, 2000⟩)]
        (['x', '.', 'w', 'a', 'v']) false =
      (['x', '.', 'w', 'a', 'v'], false,
        [(['x', '.', 'w', 'a', 'v'], Node.file ⟨true, true, 1, 44100, 2000⟩)]) :=
  wav_mono_44100_untouched
    [(['x', '.', 'w', 'a', 'v'], Node.file ⟨true, true, 1, 44100, 2000⟩)]
    (['x', '.', 'w', 'a', 'v']) ⟨true, true, 1, 44100, 2000⟩
    (by decide) (by decide) (by decide) (by decide) (by decide)

/-- Counterexample to C2 as stated: this file is already mono 44100 Hz, yet
because its container is `.mp3` the normalization step re-encodes it to a
new `.wav` path and deletes the original — the file is not left
byte-identical at its original path in its original container. -/
theorem mono_mp3_rewritten_counterexample :
    (lookupFile [(['a', '.', 'm', 'p', '3'], Node.file ⟨true, true, 1, 44100, 5000⟩)]
        (['a', '.', 'm', 'p', '3'])).map
        (fun f => (f.channels, f.sampleRate)) = some (1, 44100) ∧
    (convert_audio_format [(['a', '.', 'm', 'p', '3'], Node.file ⟨true, true, 1, 44100, 5000⟩)]
        (['a', '.', 'm', 'p', '3']) false).2.1 = true ∧
    (lookupL (convert_audio_format
        [(['a', '.', 'm', 'p', '3'], Node.file ⟨true, true, 1, 44100, 5000⟩)]
        (['a', '.', 'm', 'p', '3']) false).2.2 (['a', '.', 'm', 'p', '3'])).isSome = false ∧
    (convert_audio_format [(['a', '.', 'm', 'p', '3'], Node.file ⟨true, true, 1, 44100, 5000⟩)]
        (['a', '.', 'm', 'p', '3']) false).1 = ['a', '.', 'w', 'a', 'v'] := by
  decide

/-! # Merge and rename lemmas (C4, C7, C10) -/

theorem hasName_append (es1 es2 : Listing) (n : Str) :
    hasName (es1 ++ es2) n = (hasName es1 n || hasName es2 n) := by
  simp [hasName, List.any_append]

theorem lookupL_setL (es : Listing) (n : Str) (v : Node) (m : Str) :
    lookupL (setL es n v) m =
      if m = n then (lookupL es n).map (fun _ => v) else lookupL es m := by
  induction es with
  | nil => by_cases h : m = n <;> simp [setL, lookupL, h]
  | cons a tl ih =>
    obtain ⟨a1, a2⟩ := a
    rw [setL, List.map_cons]
    rw [setL] at ih
    simp only [beq_iff_eq] at ih
    simp only [lookupL_cons]
    by_cases hmn : m = n
    · subst hmn
      by_cases han : a1 = m
      · simp [han, ih]
      · simp [han, ih]
    · by_cases han : a1 = n
      · have hnm : ¬(n = m) := fun hcon => hmn hcon.symm
        simp [han, hnm, hmn, ih]
      · by_cases ham : a1 = m
        · simp [han, ham, hmn, ih]
        · simp [han, ham, hmn, ih]

theorem removeL_append (es1 es2 : Listing) (n : Str) :
    removeL (es1 ++ es2) n = removeL es1 n ++ removeL es2 n := by
  simp [removeL, List.filter_append]

theorem moveAllInto_disjoint :
    ∀ (items dst : Listing), (∀ e ∈ items, hasName dst e.1 = false) →
      (items.map Prod.fst).Nodup →
      moveAllInto dst items = (dst ++ items, [], true) := by
  intro items
  induction items with
  | nil => intro dst _ _; simp [moveAllInto]
  | cons a rest ih =>
    obtain ⟨n, v⟩ := a
    intro dst hdisj hnodup
    have hn : hasName dst n = false := hdisj (n, v) (List.mem_cons_self _ _)
    rw [moveAllInto, if_neg (by rw [hn]; simp)]
    have hnotin : n ∉ rest.map Prod.fst := by
      rw [List.map_cons] at hnodup
      exact (List.nodup_cons.mp hnodup).1
    have hdisj2 : ∀ e ∈ rest, hasName (dst ++ [(n, v)]) e.1 = false := by
      intro e he
      rw [hasName_append]
      have h1 : hasName dst e.1 = false := hdisj e (List.mem_cons_of_mem _ he)
      have h2 : hasName [(n, v)] e.1 = false := by
        have : ¬(n = e.1) := by
          intro hcon
          exact hnotin (hcon ▸ List.mem_map_of_mem Prod.fst he)
        simp [hasName, this]
      rw [h1, h2]
      rfl
    have hnodup2 : (rest.map Prod.fst).Nodup := by
      rw [List.map_cons] at hnodup
      exact (List.nodup_cons.mp hnodup).2
    rw [ih (dst ++ [(n, v)]) hdisj2 hnodup2]
    simp

theorem moveAllInto_preserves :
    ∀ (items dst : Listing) (m : Str), (lookupL dst m).isSome = true →
      lookupL (moveAllInto dst items).1 m = lookupL dst m := by
  intro items
  induction items with
  | nil => intro dst m _; rfl
  | cons a rest ih =>
    obtain ⟨n, v⟩ := a
    intro dst m hm
    rw [moveAllInto]
    by_cases h : hasName dst n = true
    · rw [if_pos h]
    · rw [if_neg h]
      have hlook : lookupL (dst ++ [(n, v)]) m = lookupL dst m := by
        rw [lookupL_append]
        cases hv : lookupL dst m with
        | some w => rfl
        | none => rw [hv] at hm; simp at hm
      rw [ih (dst ++ [(n, v)]) m (by rw [hlook]; exact hm), hlook]

theorem searchStart_lt_length (s : Str) (i : Nat) (h : searchStart s = some i) :
    i < s.length := by
  obtain ⟨-, hlen, -, -⟩ := searchGo_some s 0 i h
  simpa using hlen

theorem take_ne_self (s : Str) (i : Nat) (hi : i < s.length) : s.take i ≠ s := by
  intro hcon
  have := congrArg List.length hcon
  simp only [List.length_take] at this
  omega

/-- Amended C4: when the suffix-removal pass merges a directory into an
existing sibling directory with the base name and no entry name occurs on
both sides, the base directory afterwards holds the entries of both
directories and the suffixed directory is gone.  (When an entry name occurs
on both sides, `shutil.move` raises, the pass is aborted and the suffixed
directory survives — see the counterexample.) -/
theorem speaker_merge_union (es : Listing) (dname : Str) (i : Nat) (ds cs : Listing)
    (hsearch : searchStart dname = some i) (hne : (dname.take i).isEmpty = false)
    (htgt : lookupL es (dname.take i) = some (Node.dir ds))
    (hsrc : lookupL es dname = some (Node.dir cs))
    (hdisj : ∀ e ∈ cs, hasName ds e.1 = false)
    (hnodup : (cs.map Prod.fst).Nodup) :
    speaker_step es dname false =
      (removeL (setL es (dname.take i) (Node.dir (ds ++ cs))) dname, true) ∧
    lookupL (speaker_step es dname false).1 (dname.take i) = some (Node.dir (ds ++ cs)) ∧
    lookupL (speaker_step es dname false).1 dname = none := by
  have hnedname : dname.take i ≠ dname := take_ne_self dname i (searchStart_lt_length dname i hsearch)
  have hstep : speaker_step es dname false =
      (removeL (setL es (dname.take i) (Node.dir (ds ++ cs))) dname, true) := by
    rw [speaker_step]
    simp only [hsearch, Bool.false_eq_true, if_false, hne, htgt, hsrc,
      moveAllInto_disjoint cs ds hdisj hnodup]
  refine ⟨hstep, ?_, ?_⟩
  · rw [hstep]
    simp only [lookupL_removeL, hnedname, if_false, lookupL_setL, if_pos rfl, htgt]
    rfl
  · rw [hstep]
    simp [lookupL_removeL]

theorem speaker_merge_union_witness :
    speaker_step
        [(['A'], Node.dir [(['x'], Node.file ⟨true, true, 1, 44100, 1⟩)]),
         (['A', '_', '1'], Node.dir [(['y'], Node.file ⟨true, true, 1, 44100, 2⟩)])]
        (['A', '_', '1']) false =
      (removeL (setL
        [(['A'], Node.dir [(['x'], Node.file ⟨true, true, 1, 44100, 1⟩)]),
         (['A', '_', '1'], Node.dir [(['y'], Node.file ⟨true, true, 1, 44100, 2⟩)])]
        (['A'])
        (Node.dir [(['x'], Node.file ⟨true, true, 1, 44100, 1⟩),
                   (['y'], Node.file ⟨true, true, 1, 44100, 2⟩)])) (['A', '_', '1']), true) ∧
    lookupL (speaker_step
        [(['A'], Node.dir [(['x'], Node.file ⟨true, true, 1, 44100, 1⟩)]),
         (['A', '_', '1'], Node.dir [(['y'], Node.file ⟨true, true, 1, 44100, 2⟩)])]
        (['A', '_', '1']) false).1 (['A']) =
      some (Node.dir [(['x'], Node.file ⟨true, true, 1, 44100, 1⟩),
                      (['y'], Node.file ⟨true, true, 1, 44100, 2⟩)]) ∧
    lookupL (speaker_step
        [(['A'], Node.dir [(['x'], Node.file ⟨true, true, 1, 44100, 1⟩)]),
         (['A', '_', '1'], Node.dir [(['y'], Node.file ⟨true, true, 1, 44100, 2⟩)])]
        (['A', '_', '1']) false).1 (['A', '_', '1']) = none := by
  have h := speaker_merge_union
    [(['A'], Node.dir [(['x'], Node.file ⟨true, true, 1, 44100, 1⟩)]),
     (['A', '_', '1'], Node.dir [(['y'], Node.file ⟨true, true, 1, 44100, 2⟩)])]
    (['A', '_', '1']) 1
    [(['x'], Node.file ⟨true, true, 1, 44100, 1⟩)]
    [(['y'], Node.file ⟨true, true, 1, 44100, 2⟩)]
    (by decide) (by decide) rfl rfl (by decide) (by decide)
  exact h

/-- Counterexample to C4 as stated: both `A` and `A_1` contain an entry
named `x`; the first `shutil.move` raises, the pass is aborted, and `A_1`
still exists afterwards (so the suffixed directory does not disappear and
no union is formed). -/
theorem speaker_merge_counterexample :
    isDirAt
        [(['A'], Node.dir [(['x'], Node.file ⟨true, true, 1, 44100, 1⟩)]),
         (['A', '_', '1'], Node.dir [(['x'], Node.file ⟨true, true, 1, 44100, 2⟩)])]
        (['A']) = true ∧
    (lookupL (rename_speaker_folders
        [(['A'], Node.dir [(['x'], Node.file ⟨true, true, 1, 44100, 1⟩)]),
         (['A', '_', '1'], Node.dir [(['x'], Node.file ⟨true, true, 1, 44100, 2⟩)])]
        false) (['A', '_', '1'])).isSome = true := by
  decide

/-- Amended C10: a directory whose name is all digits gets the empty base
name; the target path is the parent itself (which exists), so when none of
its entry names collides with an entry of the parent, all entries are moved
up into the parent and the directory is deleted — the empty name is not
treated as a skip.  (A name collision makes `shutil.move` raise and the
directory survives — see the counterexample.) -/
theorem speaker_digits_merge_to_parent (es : Listing) (dname : Str) (cs : Listing)
    (hdig : allDigits dname = true) (hne : dname ≠ [])
    (hsrc : lookupL es dname = some (Node.dir cs))
    (hdisj : ∀ e ∈ cs, hasName es e.1 = false)
    (hnodup : (cs.map Prod.fst).Nodup) :
    searchStart dname = some 0 ∧
    speaker_step es dname false = (removeL es dname ++ cs, true) := by
  have hsearch : searchStart dname = some 0 := by
    cases hd : dname with
    | nil => exact absurd hd hne
    | cons c r =>
      rw [hd] at hdig
      rw [searchStart, searchGo, if_pos ?_]
      rw [matchWhole]
      simp only [allDigits, List.all_cons, Bool.and_eq_true] at hdig
      simp [hdig.1, allDigits, hdig.2]
  refine ⟨hsearch, ?_⟩
  have hdnamemem : hasName es dname = true := by
    rw [hasName_lookupL, hsrc]
    rfl
  have hcsne : removeL cs dname = cs := by
    apply List.filter_eq_self.mpr
    intro e he
    have : hasName es e.1 = false := hdisj e he
    have hne2 : ¬(e.1 = dname) := by
      intro hcon
      rw [hcon, hdnamemem] at this
      exact absurd this (by simp)
    simp [hne2]
  rw [speaker_step]
  simp only [hsearch, Bool.false_eq_true, if_false, List.take_zero, List.isEmpty_nil,
    if_true, hsrc, moveAllInto_disjoint cs es hdisj hnodup, removeL_append, hcsne]

theorem speaker_digits_merge_witness :
    speaker_step
        [(['1'], Node.dir [(['y'], Node.file ⟨true, true, 1, 44100, 7⟩)]),
         (['x'], Node.file ⟨true, true, 1, 44100, 3⟩)]
        (['1']) false =
      (removeL
        [(['1'], Node.dir [(['y'], Node.file ⟨true, true, 1, 44100, 7⟩)]),
         (['x'], Node.file ⟨true, true, 1, 44100, 3⟩)] (['1']) ++
        [(['y'], Node.file ⟨true, true, 1, 44100, 7⟩)], true) :=
  (speaker_digits_merge_to_parent
    [(['1'], Node.dir [(['y'], Node.file ⟨true, true, 1, 44100, 7⟩)]),
     (['x'], Node.file ⟨true, true, 1, 44100, 3⟩)]
    (['1']) [(['y'], Node.file ⟨true, true, 1, 44100, 7⟩)]
    (by decide) (by decide) rfl (by decide) (by decide)).2

/-- Counterexample to C10 as stated: directory `1` (all digits) contains an
entry `x` that also exists in the parent; the move raises, the pass aborts,
and the directory `1` is neither emptied nor deleted. -/
theorem speaker_digits_collision_counterexample :
    allDigits (['1']) = true ∧
    (lookupL (rename_speaker_folders
        [(['1'], Node.dir [(['x'], Node.file ⟨true, true, 1, 44100, 2⟩)]),
         (['x'], Node.file ⟨true, true, 1, 44100, 3⟩)]
        false) (['1'])).isSome = true := by
  decide

/-! # C7: no silent overwrite -/

theorem renameFreeAux_free :
    ∀ (fuel k : Nat) (fs : Listing) (base t : Str),
      renameFreeAux fs base k fuel = some t → hasName fs t = false := by
  intro fuel
  induction fuel with
  | zero => intro k fs base t h; simp [renameFreeAux] at h
  | succ f ih =>
    intro k fs base t h
    rw [renameFreeAux] at h
    by_cases hc : hasName fs (candOf base k) = true
    · rw [if_pos hc] at h
      exact ih (k + 1) fs base t h
    · rw [if_neg hc] at h
      injection h with h
      subst h
      rwa [Bool.not_eq_true] at hc

theorem renameFree_free (fs : Listing) (base t : Str) (h : renameFree fs base = some t) :
    hasName fs t = false := by
  rw [renameFree] at h
  by_cases hb : hasName fs base = true
  · rw [if_pos hb] at h
    exact renameFreeAux_free _ _ _ _ _ h
  · rw [if_neg hb] at h
    injection h with h
    subst h
    rwa [Bool.not_eq_true] at hb

theorem safe_rename_preserves (fs : Listing) (old nw q : Str)
    (hq : q ≠ old) (hqs : (lookupL fs q).isSome = true) :
    lookupL (safe_rename fs old nw) q = lookupL fs q := by
  rw [safe_rename]
  by_cases he : old = nw
  · rw [if_pos he]
  · rw [if_neg he]
    cases hv : lookupL fs old with
    | none => simp only [hv]
    | some v =>
      cases ht : renameFree fs nw with
      | none => simp only [hv, ht]
      | some t =>
        simp only [hv, ht]
        rw [lookupL_append, lookupL_removeL, if_neg hq]
        cases hw : lookupL fs q with
        | some w => rfl
        | none => rw [hw] at hqs; simp at hqs

/-- Amended C7: safe_rename never renames onto an occupied path (the
`_1`, `_2`, ... loop stops only at a free name) and never disturbs any
other existing entry; the directory-merge loop only appends to the target
directory and never replaces one of its existing entries (a same-named
entry raises instead).  However, when the path computed by the
suffix-removal pass is occupied by a FILE, the merge loop degenerates to a
bare `os.rename` onto that file and silently overwrites it — see the
counterexample. -/
theorem no_silent_overwrite (fs dst items : Listing) (old nw q t m : Str) :
    (renameFree fs nw = some t → hasName fs t = false) ∧
    (q ≠ old → (lookupL fs q).isSome = true →
      lookupL (safe_rename fs old nw) q = lookupL fs q) ∧
    ((lookupL dst m).isSome = true →
      lookupL (moveAllInto dst items).1 m = lookupL dst m) :=
  ⟨renameFree_free fs nw t,
   fun hq hqs => safe_rename_preserves fs old nw q hq hqs,
   fun hm => moveAllInto_preserves items dst m hm⟩

theorem no_silent_overwrite_witness :
    hasName [(['A'], Node.file ⟨true, true, 1, 44100, 1⟩)] (candOf (['A']) 1) = false ∧
    lookupL (safe_rename [(['A'], Node.file ⟨true, true, 1, 44100, 1⟩),
        (['B'], Node.file ⟨true, true, 1, 44100, 2⟩)] (['B']) (['A'])) (['A']) =
      lookupL [(['A'], Node.file ⟨true, true, 1, 44100, 1⟩),
        (['B'], Node.file ⟨true, true, 1, 44100, 2⟩)] (['A']) ∧
    lookupL (moveAllInto [(['A'], Node.file ⟨true, true, 1, 44100, 1⟩)]
        [(['C'], Node.file ⟨true, true, 1, 44100, 3⟩)]).1 (['A']) =
      lookupL [(['A'], Node.file ⟨true, true, 1, 44100, 1⟩)] (['A']) := by
  have h1 := (no_silent_overwrite [(['A'], Node.file ⟨true, true, 1, 44100, 1⟩)]
    [] [] ([]) (['A']) ([]) (candOf (['A']) 1) ([])).1 (by decide)
  have h2 := (no_silent_overwrite [(['A'], Node.file ⟨true, true, 1, 44100, 1⟩),
    (['B'], Node.file ⟨true, true, 1, 44100, 2⟩)] [] [] (['B']) (['A']) (['A'])
    ([]) ([])).2.1 (by decide) (by decide)
  have h3 := (no_silent_overwrite []
    [(['A'], Node.file ⟨true, true, 1, 44100, 1⟩)]
    [(['C'], Node.file ⟨true, true, 1, 44100, 3⟩)] ([]) ([]) ([]) ([]) (['A'])).2.2 (by decide)
  exact ⟨h1, h2, h3⟩

/-- Counterexample to C7 as stated: the proposed new path `A` of the
suffix-removal rename of `A_1` is occupied by a FILE; instead of a numeric
suffix or a directory merge, the pass renames `A_1`'s entry straight onto
the file `A`, silently overwriting it (its stored duration changes from
111 to 222 without any error). -/
theorem merge_onto_file_overwrites_counterexample :
    (lookupL [(['A'], Node.file ⟨true, true, 1, 44100, 111⟩),
        (['A', '_', '1'], Node.dir [(['b'], Node.file ⟨true, true, 1, 44100, 222⟩)])]
      (['A'])).isSome = true ∧
    durAt [(['A'], Node.file ⟨true, true, 1, 44100, 111⟩),
        (['A', '_', '1'], Node.dir [(['b'], Node.file ⟨true, true, 1, 44100, 222⟩)])]
      (['A']) = 111 ∧
    durAt (rename_speaker_folders
        [(['A'], Node.file ⟨true, true, 1, 44100, 111⟩),
         (['A', '_', '1'], Node.dir [(['b'], Node.file ⟨true, true, 1, 44100, 222⟩)])]
        false) (['A']) = 222 ∧
    (lookupL (rename_speaker_folders
        [(['A'], Node.file ⟨true, true, 1, 44100, 111⟩),
         (['A', '_', '1'], Node.dir [(['b'], Node.file ⟨true, true, 1, 44100, 222⟩)])]
        false) (['A', '_', '1'])).isSome = false := by
  decide

/-! # C8: dry-run performs no mutation -/

theorem convert_dry (fs : Listing) (p : Str) : (convert_audio_format fs p true).2.2 = fs := by
  rw [convert_audio_format]
  repeat' split <;> try rfl
  all_goals try exact absurd rfl (by assumption)
  all_goals dsimp only
  all_goals split <;> rfl

theorem short_clip_dry (fs : Listing) (p : Str) : (short_clip_step fs p true).2 = fs := by
  rw [short_clip_step]
  repeat' split <;> try rfl

theorem process_dry (fs : Listing) (p : Str) : (process_audio_file fs p true).2.2 = fs := by
  show (short_clip_step (convert_audio_format fs p true).2.2
    (convert_audio_format fs p true).1 true).2 = fs
  rw [short_clip_dry, convert_dry]

theorem foldl_const {g : Listing → Str → Listing} :
    ∀ (l : List Str) (s : Listing), (∀ q ∈ l, g s q = s) → l.foldl g s = s := by
  intro l
  induction l with
  | nil => intro s _; rfl
  | cons q rest ih =>
    intro s h
    rw [List.foldl_cons, h q (by simp)]
    exact ih s (fun x hx => h x (List.mem_cons_of_mem q hx))

theorem remove_short_dry (es : Listing) : remove_short_audio_files es true = es := by
  rw [remove_short_audio_files]
  exact foldl_const _ _ (fun q _ => process_dry es q)

theorem pinyinGo_dry (tr : Str → Str) :
    ∀ (ds : List Str) (s : Listing), pinyinGo tr s ds true = s := by
  intro ds
  induction ds with
  | nil => intro s; rfl
  | cons d rest ih =>
    intro s
    rw [pinyinGo]
    by_cases hc : has_chinese d = true
    · simp only [hc, if_true]
      repeat' split
      all_goals try exact ih s
      all_goals exact absurd rfl (by assumption)
    · have hc2 : has_chinese d = false := by rwa [Bool.not_eq_true] at hc
      simp only [hc2, Bool.false_eq_true, if_false]
      exact ih s

theorem speaker_step_dry (es : Listing) (d : Str) : speaker_step es d true = (es, true) := by
  rw [speaker_step]
  split <;> rfl

theorem speakerGo_dry : ∀ (ds : List Str) (es : Listing), speakerGo es ds true = es := by
  intro ds
  induction ds with
  | nil => intro es; rfl
  | cons d rest ih =>
    intro es
    rw [speakerGo, speaker_step_dry]
    exact ih es

theorem underscoreGo_dry : ∀ (ns : List Str) (s : Listing), underscoreGo s ns true = s := by
  intro ns
  induction ns with
  | nil => intro s; rfl
  | cons n rest ih =>
    intro s
    rw [underscoreGo]
    by_cases hc : n.contains '_' = true
    · simp only [hc, if_true]
      repeat' split
      all_goals try exact ih s
      all_goals exact absurd rfl (by assumption)
    · have hc2 : n.contains '_' = false := by rwa [Bool.not_eq_true] at hc
      simp only [hc2, Bool.false_eq_true, if_false]
      exact ih s

theorem rename_folders_to_pinyin_dry (tr : Str → Str) (es : Listing) :
    rename_folders_to_pinyin tr es true = es := by
  rw [rename_folders_to_pinyin]
  have h1 : remove_specific_folders es true = es := rfl
  rw [h1, pinyinGo_dry, remove_short_dry]

theorem rename_speaker_folders_dry (es : Listing) : rename_speaker_folders es true = es := by
  rw [rename_speaker_folders, speakerGo_dry]

theorem underscore_pass_dry (es : Listing) : rename_files_underscore_to_dash es true = es := by
  rw [rename_files_underscore_to_dash, underscoreGo_dry, underscoreGo_dry]

/-- C8: in preview (dry-run) mode no pass performs any mutation of the
directory state: the full pipeline and each individual mutating step
return the state they were given. -/
theorem dry_run_no_mutation (tr : Str → Str) (es fs : Listing) (p : Str) :
    pipelineRun tr es true = es ∧
    remove_specific_folders es true = es ∧
    (convert_audio_format fs p true).2.2 = fs ∧
    (process_audio_file fs p true).2.2 = fs ∧
    remove_short_audio_files es true = es ∧
    rename_speaker_folders es true = es ∧
    rename_files_underscore_to_dash es true = es := by
  refine ⟨?_, rfl, convert_dry fs p, process_dry fs p, remove_short_dry es,
    rename_speaker_folders_dry es, underscore_pass_dry es⟩
  rw [pipelineRun, rename_folders_to_pinyin_dry, rename_speaker_folders_dry,
    underscore_pass_dry]

/-! # C6: pipeline idempotence -/

end DataProcess
